import Mathlib

/-!
Verification of the event-watcher/relay subsystem of the agent
(`src/services/Watcher.ts`, class `WatcherService`).

Strings are modelled as `List Char`; JavaScript string primitives
(`indexOf`, `lastIndexOf`, `slice`, `substring`, `trim`, `split`, `join`)
are modelled by the list functions below.  Fallible collaborators
(the container inspector, the per-line JSON decoder) are parameters of
`Option` type.  The supervisor's mutable state and its timer callbacks are
modelled as an explicit state machine with an observation trace.
-/

set_option maxHeartbeats 1000000

namespace Agent

/-! ## Constants of `WatcherService` (Watcher.ts lines 44-47) -/

def maxBufferSize : Nat := 1024 * 1024

def initialRetryDelay : Nat := 5000

def maxRetryDelay : Nat := 60000

/-! ## JavaScript string primitives over `List Char` -/

/-- JS `s.indexOf(c)`: index of the first occurrence, `none` instead of `-1`. -/
def firstIdx (c : Char) : List Char → Option Nat
  | [] => none
  | a :: as => if a = c then some 0 else (firstIdx c as).map (· + 1)

/-- JS `s.lastIndexOf(c)`: index of the last occurrence, `none` instead of `-1`. -/
def lastIdx (c : Char) : List Char → Option Nat
  | [] => none
  | a :: as =>
    match lastIdx c as with
    | some i => some (i + 1)
    | none => if a = c then some 0 else none

/-- JS `s.trim()`: strips leading and trailing whitespace (space, tab, CR, LF). -/
def jsTrim (l : List Char) : List Char :=
  ((l.dropWhile Char.isWhitespace).reverse.dropWhile Char.isWhitespace).reverse

/-- JS `s.split(sep)` for a one-character separator: the list of (possibly empty)
segments between separators; `"".split(sep)` is `[""]`. -/
def jsSplit (sep : Char) : List Char → List (List Char)
  | [] => [[]]
  | c :: cs =>
    if c = sep then [] :: jsSplit sep cs
    else
      match jsSplit sep cs with
      | s :: ss => (c :: s) :: ss
      | [] => [[c]]

/-- JS `parts.join(sep)`. -/
def joinSep (sep : List Char) : List (List Char) → List Char
  | [] => []
  | [x] => x
  | x :: xs => x ++ sep ++ joinSep sep xs

/-! ## Line parser (`WatcherService.handleChunk`, lines 157-191)

The `while ((index = this.buffer.indexOf("\n")) >= 0)` loop repeatedly takes the
prefix before the first newline, JS-trims it, skips it when the trimmed line is
empty (`if (!line) continue`), and continues on the rest.  The loop is rendered
with a fuel argument; each iteration removes at least the newline itself, so
`buf.length` fuel always suffices. -/

def extractGo : Nat → List Char → List (List Char) × List Char
  | 0, buf => ([], buf)
  | fuel + 1, buf =>
    match firstIdx '\n' buf with
    | some i =>
      let line := jsTrim (buf.take i)
      let rest := extractGo fuel (buf.drop (i + 1))
      (if line = [] then rest.1 else line :: rest.1, rest.2)
    | none => ([], buf)

/-- The whole newline-extraction loop on a buffer: the emitted (trimmed,
nonempty) lines and the newline-free remainder. -/
def extractLines (buf : List Char) : List (List Char) × List Char :=
  extractGo buf.length buf

/-- The overflow guard (lines 160-166): JS `buffer.slice(-maxBufferSize / 2)`
keeps the final `maxBufferSize / 2` characters.  Returns the (possibly
truncated) buffer and whether the truncation warning was logged. -/
def truncateBuffer (b : List Char) : List Char × Bool :=
  if b.length > maxBufferSize then (b.drop (b.length - maxBufferSize / 2), true)
  else (b, false)

structure ChunkResult where
  lines : List (List Char)
  buffer : List Char
  warned : Bool
deriving DecidableEq

/-- `WatcherService.handleChunk`: append the chunk, apply the overflow guard,
then run the newline-extraction loop. -/
def handleChunk (buffer chunk : List Char) : ChunkResult :=
  let b := buffer ++ chunk
  let t := truncateBuffer b
  let r := extractLines t.1
  ⟨r.1, r.2, t.2⟩

/-- Feeding a sequence of stdout chunks through `handleChunk`, starting from a
given buffered remainder: all emitted lines in order, and the final buffer. -/
def feedChunks (buffer : List Char) : List (List Char) → List (List Char) × List Char
  | [] => ([], buffer)
  | c :: cs =>
    let r := handleChunk buffer c
    let rest := feedChunks r.buffer cs
    (r.lines ++ rest.1, rest.2)

/-! ## Event decoding, filtering, enrichment (lines 168-292) -/

def typeContainer : List Char := "container".toList

def actionCreate : List Char := "create".toList

def actionStop : List Char := "stop".toList

def actionKill : List Char := "kill".toList

def actionStart : List Char := "start".toList

def latestTag : List Char := "latest".toList

def keyAppId : List Char := "CORE_APP_ID".toList

def keyEnvId : List Char := "CORE_ENV_ID".toList

def keyDeploymentId : List Char := "CORE_DEPLOYMENT_ID".toList

structure DockerActor where
  ID : List Char
  Attributes : List (List Char × List Char)
deriving DecidableEq

/-- The decoded event record (interface `DockerEvent`).  The `Type` field is
rendered `Type'` (`Type` is a Lean keyword); the unused `time`, `timeNano`,
`scope` and `status` fields are omitted. -/
structure DockerEvent where
  Type' : List Char
  Action : List Char
  Actor : DockerActor
deriving DecidableEq

structure ContainerConfig where
  Image : List Char
  Env : Option (List (List Char))
deriving DecidableEq

structure ContainerState where
  Status : List Char
deriving DecidableEq

/-- The slice of dockerode's `ContainerInspectInfo` the watcher reads. -/
structure ContainerInspectInfo where
  Id : List Char
  Name : List Char
  Created : List Char
  Config : ContainerConfig
  State : ContainerState
deriving DecidableEq

structure ContainerDetails where
  application_id : Option (List Char)
  environment_id : Option (List Char)
  deployment_id : Option (List Char)
deriving DecidableEq

/-- `WatcherService.shouldForward` (lines 248-260). -/
def shouldForward (event : DockerEvent) : Bool :=
  if event.Type' ≠ typeContainer then false
  else if event.Action = actionStop ∨ event.Action = actionKill then false
  else true

/-- `WatcherService.parseImageTag` (lines 263-275).  JS `lastIndexOf` returns
`-1` when absent and `indexOf("/")` returns `-1` when absent; since
`-1 > lastColon` is false whenever a colon is present (`lastColon ≥ 0`), the
`-1` sentinels are rendered by `Option` matches. -/
def parseImageTag (imageName : List Char) : List Char × List Char :=
  match lastIdx ':' imageName with
  | none => (imageName, latestTag)
  | some lastColon =>
    let image := imageName.take lastColon
    let tag := imageName.drop (lastColon + 1)
    let split := (image, if tag = [] then latestTag else tag)
    match firstIdx '/' imageName with
    | some f => if lastColon < f then (imageName, latestTag) else split
    | none => split

/-- One env entry split as by `const [key, ...rest] = entry.split("=")` and
`rest.join("=")` (lines 281-284). -/
def splitEntry (entry : List Char) : List Char × List Char :=
  match jsSplit '=' entry with
  | [] => ([], [])
  | key :: rest => (key, joinSep ['='] rest)

/-- JS `Map` built from key/value pairs (later entries overwrite earlier ones),
followed by `.get(key)` (`undefined` rendered as `none`). -/
def envMapGet (key : List Char) (pairs : List (List Char × List Char)) : Option (List Char) :=
  pairs.foldl (fun acc p => if p.1 = key then some p.2 else acc) none

/-- `WatcherService.getDetailsFromEnv` (lines 277-292); `?? null` is `Option`. -/
def getDetailsFromEnv (inspect : ContainerInspectInfo) : ContainerDetails :=
  let env := inspect.Config.Env.getD []
  let pairs := env.map splitEntry
  ⟨envMapGet keyAppId pairs, envMapGet keyEnvId pairs, envMapGet keyDeploymentId pairs⟩

/-- `inspect.Name.replace(/^\//, "")`: strip one leading slash. -/
def stripLeadingSlash (n : List Char) : List Char :=
  match n with
  | '/' :: rest => rest
  | _ => n

/-- The outbound attribute mapping: either the raw actor attributes (unenriched)
or the replacement object built on successful enrichment (lines 213-223). -/
inductive PayloadAttrs where
  | raw (attrs : List (List Char × List Char))
  | enriched (id name image tag state created : List Char)
      (application_id environment_id deployment_id : Option (List Char))
deriving DecidableEq

structure EventPayload where
  event : List Char
  type : List Char
  id : List Char
  attributes : PayloadAttrs
deriving DecidableEq

structure HandleResult where
  posted : Option EventPayload
  enrichErrorLogged : Bool
deriving DecidableEq

/-- `WatcherService.handleEvent` (lines 194-245).  The container inspector is a
parameter returning `none` on lookup failure; `posted` is the payload handed to
`httpService.postSafe` (`none` when the filter suppressed the event), and
`enrichErrorLogged` records whether the enrichment `catch` branch logged. -/
def handleEvent (inspector : List Char → Option ContainerInspectInfo)
    (event : DockerEvent) : HandleResult :=
  if shouldForward event = false then ⟨none, false⟩
  else
    let base : EventPayload :=
      ⟨event.Action, event.Type', event.Actor.ID, .raw event.Actor.Attributes⟩
    if event.Action = actionCreate ∧ event.Type' = typeContainer then
      match inspector event.Actor.ID with
      | some inspect =>
        let environment := getDetailsFromEnv inspect
        let it := parseImageTag inspect.Config.Image
        ⟨some { base with
            attributes := .enriched inspect.Id (stripLeadingSlash inspect.Name)
              it.1 it.2 inspect.State.Status inspect.Created
              environment.application_id environment.environment_id
              environment.deployment_id }, false⟩
      | none => ⟨some base, true⟩
    else ⟨some base, false⟩

/-- The per-line decode loop body (lines 173-189): each nonempty trimmed line is
`JSON.parse`d (the decoder is a parameter); a successful decode yields an event,
a failed one logs the first 200 characters of the line (`line.substring(0, 200)`).
Returns the decoded events and the logged excerpts, each in line order. -/
def decodeLines (decode : List Char → Option DockerEvent) :
    List (List Char) → List DockerEvent × List (List Char)
  | [] => ([], [])
  | l :: ls =>
    let rest := decodeLines decode ls
    match decode l with
    | some ev => (ev :: rest.1, rest.2)
    | none => (rest.1, l.take 200 :: rest.2)

/-- One chunk through the whole synchronous pipeline: line extraction, per-line
decode, filter/enrich.  Returns the forwarded payloads, the decode-error
excerpts, and the new buffer. -/
def processChunk (decode : List Char → Option DockerEvent)
    (inspector : List Char → Option ContainerInspectInfo)
    (buffer chunk : List Char) :
    List EventPayload × List (List Char) × List Char :=
  let r := handleChunk buffer chunk
  let d := decodeLines decode r.lines
  (d.1.filterMap (fun ev => (handleEvent inspector ev).posted), d.2, r.buffer)

/-! ## Process supervisor state machine (lines 36-154)

State fields mirror the class fields (`state`, `spawnedProcess`, `retryCount`);
in addition the machine tracks the set of OS-live spawned subprocesses, a fresh
pid counter, and the numbers of pending `setTimeout` callbacks (the 5-second
force-kill timer of `stop()` and the scheduled-restart timer), whose firings are
separate external actions.  Signals are observations only: a signalled process
stays live until its own `exit` event (a separate action) fires. -/

inductive WState where
  | stopped
  | starting
  | running
  | stopping
deriving DecidableEq

inductive Obs where
  | spawned (pid : Nat)
  | sigterm (pid : Nat)
  | sigkill (pid : Nat)
  | scheduledRestart (delay : Nat)
deriving DecidableEq

def Obs.delayOf : Obs → Option Nat
  | .scheduledRestart d => some d
  | _ => none

structure W where
  st : WState
  procRef : Option Nat
  live : List Nat
  nextPid : Nat
  retryCount : Nat
  forceKillTimers : Nat
  restartTimers : Nat
deriving DecidableEq

def initW : W := ⟨.stopped, none, [], 0, 0, 0, 0⟩

/-- `WatcherService.scheduleRestart` (lines 143-154): the delay is computed from
the current `retryCount`, which is incremented afterwards; a restart timer for
that delay becomes pending. -/
def scheduleRestartW (s : W) : W × List Obs :=
  let delay := min (initialRetryDelay * 2 ^ s.retryCount) maxRetryDelay
  ({ s with retryCount := s.retryCount + 1, restartTimers := s.restartTimers + 1 },
    [Obs.scheduledRestart delay])

/-- `WatcherService.start` (lines 54-94).  `ok` says whether `spawn` succeeds;
on success the handlers are attached, the state becomes `running` and
`retryCount` resets to 0; on a spawn failure the `catch` branch sets `stopped`
and schedules a restart. -/
def startW (ok : Bool) (s : W) : W × List Obs :=
  if s.st = WState.running ∨ s.st = WState.starting then (s, [])
  else
    let s := { s with st := WState.starting }
    if ok then
      let pid := s.nextPid
      ({ s with
          procRef := some pid
          live := s.live ++ [pid]
          nextPid := pid + 1
          st := WState.running
          retryCount := 0 }, [Obs.spawned pid])
    else
      scheduleRestartW { s with st := WState.stopped }

/-- `WatcherService.stop` (lines 97-121): no-op when stopped/stopping; otherwise
SIGTERM the current process (if any), arm the 5-second force-kill timer, null
the process reference, and become `stopped`.  The signalled process stays live
until its own exit. -/
def stopW (s : W) : W × List Obs :=
  if s.st = WState.stopped ∨ s.st = WState.stopping then (s, [])
  else
    let s := { s with st := WState.stopping }
    match s.procRef with
    | some pid =>
      ({ s with
          forceKillTimers := s.forceKillTimers + 1
          procRef := none
          st := WState.stopped }, [Obs.sigterm pid])
    | none => ({ s with st := WState.stopped }, [])

/-- The `exit` handler attached at spawn time (lines 79-84) runs when any
spawned subprocess dies, whether or not it is still the current one: it nulls
the process reference, sets `stopped`, and schedules a restart. -/
def procExitW (pid : Nat) (s : W) : W × List Obs :=
  if pid ∈ s.live then
    scheduleRestartW { s with live := s.live.erase pid, procRef := none, st := WState.stopped }
  else (s, [])

/-- The force-kill timer callback of `stop()` (lines 109-114): when it fires it
re-reads `this.spawnedProcess` and SIGKILLs whatever process that now refers
to, or does nothing when the reference is null. -/
def forceKillFireW (s : W) : W × List Obs :=
  if s.forceKillTimers > 0 then
    let s := { s with forceKillTimers := s.forceKillTimers - 1 }
    match s.procRef with
    | some pid => (s, [Obs.sigkill pid])
    | none => (s, [])
  else (s, [])

/-- A pending scheduled-restart timer fires: `setTimeout(() => this.start(), delay)`. -/
def restartFireW (ok : Bool) (s : W) : W × List Obs :=
  if s.restartTimers > 0 then
    startW ok { s with restartTimers := s.restartTimers - 1 }
  else (s, [])

inductive Act where
  | start (ok : Bool)
  | stop
  | procExit (pid : Nat)
  | forceKillFire
  | restartFire (ok : Bool)
deriving DecidableEq

def stepW (s : W) : Act → W × List Obs
  | .start ok => startW ok s
  | .stop => stopW s
  | .procExit pid => procExitW pid s
  | .forceKillFire => forceKillFireW s
  | .restartFire ok => restartFireW ok s

def runW (s : W) : List Act → W × List Obs
  | [] => (s, [])
  | a :: as =>
    let r := stepW s a
    let rest := runW r.1 as
    (rest.1, r.2 ++ rest.2)

/-! ## Claim-side (spec-worded) definitions and concrete fixtures -/

/-- Strip one trailing carriage return, the claim C2 wording of per-line
trimming. -/
def stripTrailingCR (l : List Char) : List Char :=
  if l.getLast? = some '\r' then l.dropLast else l

/-- The Line Parser emission rule exactly as claim C2 words it: every
newline-terminated line of the byte sequence is emitted, trimmed of a trailing
carriage return only. -/
def specC2Go : Nat → List Char → List (List Char)
  | 0, _ => []
  | fuel + 1, s =>
    match firstIdx '\n' s with
    | some i => stripTrailingCR (s.take i) :: specC2Go fuel (s.drop (i + 1))
    | none => []

def specC2Emit (s : List Char) : List (List Char) := specC2Go s.length s

/-- The amended image/tag rule's slash condition is stated by membership: the
reference stays whole (tag `latest`) when it has no colon, or when it contains
a slash but none before its last colon (i.e. its first slash comes after the
last colon). -/
def specParseImage (s : List Char) : List Char × List Char :=
  match lastIdx ':' s with
  | none => (s, latestTag)
  | some L =>
    if '/' ∈ s ∧ '/' ∉ s.take L then (s, latestTag)
    else (s.take L, if s.drop (L + 1) = [] then latestTag else s.drop (L + 1))

/-- The key part of an env entry: the text before the first `=`. -/
def entryKey (e : List Char) : List Char := e.takeWhile (· != '=')

/-- The value part of an env entry: the entire text after the first `=`. -/
def entryValue (e : List Char) : List Char := (e.dropWhile (· != '=')).drop 1

/-- Spec-worded binding lookup: the value of the last entry whose key part
matches exactly, `none` when no entry matches. -/
def specLastBinding (key : List Char) : List (List Char) → Option (List Char)
  | [] => none
  | e :: es =>
    match specLastBinding key es with
    | some v => some v
    | none => if entryKey e = key then some (entryValue e) else none

/-- A decoder fixture: only the line `good` decodes, to `demoEvent`. -/
def goodLine : List Char := "good".toList

def demoEvent : DockerEvent := ⟨typeContainer, actionStart, ⟨"abc".toList, []⟩⟩

def demoDecode (l : List Char) : Option DockerEvent :=
  if l = goodLine then some demoEvent else none

def noInspector : List Char → Option ContainerInspectInfo := fun _ => none

def badGoodChunk : List Char := "rubbish\ngood\n".toList

/-- A creation event fixture with nonempty raw actor attributes. -/
def createEvent : DockerEvent :=
  ⟨typeContainer, actionCreate, ⟨"c1".toList, [("name".toList, "web".toList)]⟩⟩

def envExample : List (List Char) := [("CORE_APP_ID=a1").toList, ("CORE_ENV_ID=e1").toList]

def inspectWithEnv (env : List (List Char)) : ContainerInspectInfo :=
  ⟨"cid".toList, "/web".toList, "2024-01-01".toList,
    ⟨"nginx:1.25".toList, some env⟩, ⟨"created".toList⟩⟩

def inspectorExample : List Char → Option ContainerInspectInfo :=
  fun _ => some (inspectWithEnv envExample)

def envDup : List (List Char) := [("CORE_APP_ID=a=b").toList, ("CORE_APP_ID=c").toList]

def envEqVal : List (List Char) := [("CORE_ENV_ID=x=y").toList]

/-- C1 scenario: four successful starts whose processes all stay live (each
planned stop orphans the previous one), then four unplanned exits in a row with
no successful start in between, then a clean restart and one more exit. -/
def backoffTrace : List Act :=
  [.start true, .stop, .start true, .stop, .start true, .stop, .start true,
    .procExit 0, .procExit 1, .procExit 2, .procExit 3,
    .restartFire true, .procExit 4]

/-- C3 scenario: stop() then an immediate start() before the old subprocess has
exited; the old exit then fires the stale handler and the scheduled restart
spawns a third process. -/
def leakTrace : List Act :=
  [.start true, .stop, .start true, .procExit 0, .restartFire true]

/-- C4 scenario (a): planned stop, the process ignores SIGTERM, the grace timer
fires with no restart in between. -/
def staleKillTraceA : List Act := [.start true, .stop, .forceKillFire]

/-- C4 scenario (b): planned stop, immediate successful restart, then the grace
timer fires. -/
def staleKillTraceB : List Act := [.start true, .stop, .start true, .forceKillFire]

/-- A supervisor state with one live current subprocess, for witnesses. -/
def exampleSupervisor : W := ⟨.running, some 0, [0], 1, 0, 0, 0⟩

end Agent

namespace Agent

/-! ## Helper lemmas: `firstIdx` -/

theorem firstIdx_none_iff (c : Char) (l : List Char) : firstIdx c l = none ↔ c ∉ l := by
  induction l with
  | nil => simp [firstIdx]
  | cons a as ih =>
    by_cases h : a = c
    · subst h
      simp [firstIdx]
    · simp [firstIdx, h, Option.map_eq_none', ih, Ne.symm h]

theorem firstIdx_lt_length {c : Char} :
    ∀ {l : List Char} {i : Nat}, firstIdx c l = some i → i < l.length := by
  intro l
  induction l with
  | nil => intro i h; simp [firstIdx] at h
  | cons a as ih =>
    intro i h
    by_cases hac : a = c
    · simp [firstIdx, hac] at h
      simp [← h]
    · simp [firstIdx, hac, Option.map_eq_some'] at h
      obtain ⟨j, hj, hji⟩ := h
      have := ih hj
      simp [← hji]
      omega

theorem firstIdx_append_some {c : Char} :
    ∀ {l : List Char} {i : Nat}, firstIdx c l = some i →
      ∀ (l' : List Char), firstIdx c (l ++ l') = some i := by
  intro l
  induction l with
  | nil => intro i h; simp [firstIdx] at h
  | cons a as ih =>
    intro i h l'
    by_cases hac : a = c
    · simp [firstIdx, hac] at h ⊢
      exact h
    · simp [firstIdx, hac, Option.map_eq_some'] at h ⊢
      obtain ⟨j, hj, hji⟩ := h
      exact ⟨j, ih hj l', hji⟩

/-! ## Properties of the extraction loop -/

theorem extractGo_fuel : ∀ (f g : Nat) (buf : List Char),
    buf.length ≤ f → buf.length ≤ g → extractGo f buf = extractGo g buf := by
  intro f
  induction f with
  | zero =>
    intro g buf hf _
    have hb : buf = [] := List.eq_nil_of_length_eq_zero (Nat.le_zero.mp hf)
    subst hb
    cases g <;> simp [extractGo, firstIdx]
  | succ f ih =>
    intro g buf hf hg
    cases g with
    | zero =>
      have hb : buf = [] := List.eq_nil_of_length_eq_zero (Nat.le_zero.mp hg)
      subst hb
      simp [extractGo, firstIdx]
    | succ g =>
      cases hfi : firstIdx '\n' buf with
      | none => simp [extractGo, hfi]
      | some i =>
        have hi : i < buf.length := firstIdx_lt_length hfi
        have h1 : (buf.drop (i + 1)).length ≤ f := by
          simp [List.length_drop]; omega
        have h2 : (buf.drop (i + 1)).length ≤ g := by
          simp [List.length_drop]; omega
        simp only [extractGo, hfi]
        rw [ih g (buf.drop (i + 1)) h1 h2]

theorem extractLines_eq_go {f : Nat} {buf : List Char} (h : buf.length ≤ f) :
    extractLines buf = extractGo f buf :=
  extractGo_fuel buf.length f buf le_rfl h

theorem extractGo_of_not_mem (f : Nat) (buf : List Char) (h : '\n' ∉ buf) :
    extractGo f buf = ([], buf) := by
  cases f with
  | zero => rfl
  | succ f =>
    have hn : firstIdx '\n' buf = none := (firstIdx_none_iff _ _).mpr h
    simp [extractGo, hn]

theorem extractLines_of_not_mem {buf : List Char} (h : '\n' ∉ buf) :
    extractLines buf = ([], buf) :=
  extractGo_of_not_mem buf.length buf h

theorem extractGo_snd : ∀ (f : Nat) (buf : List Char), buf.length ≤ f →
    '\n' ∉ (extractGo f buf).2 ∧ (extractGo f buf).2.length ≤ buf.length := by
  intro f
  induction f with
  | zero =>
    intro buf hf
    have hb : buf = [] := List.eq_nil_of_length_eq_zero (Nat.le_zero.mp hf)
    subst hb
    simp [extractGo]
  | succ f ih =>
    intro buf hf
    cases hfi : firstIdx '\n' buf with
    | none =>
      have hnm := (firstIdx_none_iff _ _).mp hfi
      simp [extractGo, hfi, hnm]
    | some i =>
      have hi : i < buf.length := firstIdx_lt_length hfi
      have h1 : (buf.drop (i + 1)).length ≤ f := by
        simp [List.length_drop]; omega
      have hih := ih (buf.drop (i + 1)) h1
      simp only [extractGo, hfi]
      refine ⟨hih.1, ?_⟩
      have h2 : (buf.drop (i + 1)).length ≤ buf.length := by
        simp [List.length_drop]
      exact le_trans hih.2 h2

theorem extractLines_snd (buf : List Char) :
    '\n' ∉ (extractLines buf).2 ∧ (extractLines buf).2.length ≤ buf.length :=
  extractGo_snd buf.length buf le_rfl

theorem extractLines_unfold {buf : List Char} {i : Nat} (h : firstIdx '\n' buf = some i) :
    extractLines buf =
      ((if jsTrim (buf.take i) = [] then (extractLines (buf.drop (i + 1))).1
        else jsTrim (buf.take i) :: (extractLines (buf.drop (i + 1))).1),
        (extractLines (buf.drop (i + 1))).2) := by
  have hi := firstIdx_lt_length h
  have e1 : extractLines buf = extractGo (buf.length - 1 + 1) buf :=
    extractLines_eq_go (by omega)
  rw [e1]
  simp only [extractGo, h]
  have e2 : extractGo (buf.length - 1) (buf.drop (i + 1)) = extractLines (buf.drop (i + 1)) :=
    (extractLines_eq_go (by simp [List.length_drop]; omega)).symm
  rw [e2]

theorem extractLines_append : ∀ (f : Nat) (b : List Char), b.length ≤ f → ∀ (c : List Char),
    extractLines (b ++ c) =
      ((extractLines b).1 ++ (extractLines ((extractLines b).2 ++ c)).1,
        (extractLines ((extractLines b).2 ++ c)).2) := by
  intro f
  induction f with
  | zero =>
    intro b hb c
    have hbe : b = [] := List.eq_nil_of_length_eq_zero (Nat.le_zero.mp hb)
    subst hbe
    have h0 : extractLines ([] : List Char) = ([], []) := rfl
    rw [h0]
    simp
  | succ f ih =>
    intro b hb c
    cases hfi : firstIdx '\n' b with
    | none =>
      have hnm := (firstIdx_none_iff _ _).mp hfi
      rw [extractLines_of_not_mem hnm]
      simp
    | some i =>
      have hi := firstIdx_lt_length hfi
      have hfic : firstIdx '\n' (b ++ c) = some i := firstIdx_append_some hfi c
      have htake : (b ++ c).take i = b.take i :=
        List.take_append_of_le_length (by omega)
      have hdrop : (b ++ c).drop (i + 1) = b.drop (i + 1) ++ c :=
        List.drop_append_of_le_length (by omega)
      rw [extractLines_unfold hfic, extractLines_unfold hfi, htake, hdrop]
      have hlen : (b.drop (i + 1)).length ≤ f := by
        simp [List.length_drop]; omega
      rw [ih (b.drop (i + 1)) hlen c]
      by_cases hl : jsTrim (b.take i) = [] <;> simp [hl]

theorem feedChunks_eq : ∀ (chunks : List (List Char)) (buf : List Char), '\n' ∉ buf →
    buf.length + (List.flatten chunks).length ≤ maxBufferSize →
    feedChunks buf chunks = extractLines (buf ++ List.flatten chunks) := by
  intro chunks
  induction chunks with
  | nil =>
    intro buf hnl _
    simp only [feedChunks, List.flatten_nil, List.append_nil]
    exact (extractLines_of_not_mem hnl).symm
  | cons c cs ih =>
    intro buf hnl hlen
    have hfl : (List.flatten (c :: cs)).length = c.length + (List.flatten cs).length := by
      simp [List.flatten_cons]
    have hsize : ¬ (buf.length + c.length > maxBufferSize) := by omega
    have htr : truncateBuffer (buf ++ c) = (buf ++ c, false) := by
      simp [truncateBuffer, hsize]
    have hhc : handleChunk buf c =
        ⟨(extractLines (buf ++ c)).1, (extractLines (buf ++ c)).2, false⟩ := by
      simp [handleChunk, htr]
    have hsnd := extractLines_snd (buf ++ c)
    have hih := ih (extractLines (buf ++ c)).2 hsnd.1 (by
      have := hsnd.2
      simp only [List.length_append] at this ⊢
      omega)
    simp only [feedChunks, hhc, hih]
    have hfus := extractLines_append (buf ++ c).length (buf ++ c) le_rfl (List.flatten cs)
    rw [List.flatten_cons, ← List.append_assoc, hfus]

end Agent

namespace Agent

/-- C2 (corrected), counterexample: the claim's emission rule (every
newline-terminated line emitted, trimmed of a trailing carriage return only)
disagrees with the code on a whitespace-only line, which `handleChunk` drops
entirely, and on a line with leading whitespace, which `handleChunk` trims on
both ends. -/
theorem line_parser_claim_counterexample :
    specC2Emit ("  \n").toList = [[' ', ' ']] ∧
    (handleChunk [] (("  \n").toList)).lines = [] ∧
    specC2Emit (" x\n").toList = [[' ', 'x']] ∧
    (handleChunk [] ((" x\n").toList)).lines = [['x']] ∧
    ([[' ', ' ']] : List (List Char)) ≠ [] ∧
    ([[' ', 'x']] : List (List Char)) ≠ [['x']] := by decide

/-- C2 (amended): as long as the whole byte sequence stays within the 1 MiB
buffer ceiling (so the overflow guard never truncates), the emitted lines and
the final buffered remainder are independent of how the sequence is split into
chunks — feeding the chunks one by one equals processing the concatenation as a
single chunk — and the remainder is newline-free; each emitted line is the
prefix up to the first newline (exclusive), trimmed of leading and trailing
whitespace, with lines that are empty after trimming discarded. -/
theorem line_parser_chunk_invariance (chunks : List (List Char))
    (h : (List.flatten chunks).length ≤ maxBufferSize) :
    (feedChunks [] chunks).1 = (handleChunk [] (List.flatten chunks)).lines ∧
    (feedChunks [] chunks).2 = (handleChunk [] (List.flatten chunks)).buffer ∧
    '\n' ∉ (feedChunks [] chunks).2 := by
  have hfe := feedChunks_eq chunks [] (by simp) (by simpa using h)
  simp only [List.nil_append] at hfe
  have hnt : ¬ ((List.flatten chunks).length > maxBufferSize) := by omega
  have htr : truncateBuffer (List.flatten chunks) = (List.flatten chunks, false) := by
    unfold truncateBuffer
    rw [if_neg hnt]
  have hhc : handleChunk [] (List.flatten chunks) =
      ⟨(extractLines (List.flatten chunks)).1, (extractLines (List.flatten chunks)).2,
        false⟩ := by
    simp [handleChunk, htr]
  rw [hfe, hhc]
  exact ⟨rfl, rfl, (extractLines_snd _).1⟩

theorem line_parser_chunk_invariance_witness :
    (List.flatten [['a'], ['b', '\n', 'c']]).length ≤ maxBufferSize ∧
    ((feedChunks [] [['a'], ['b', '\n', 'c']]).1 =
        (handleChunk [] (List.flatten [['a'], ['b', '\n', 'c']])).lines ∧
      (feedChunks [] [['a'], ['b', '\n', 'c']]).2 =
        (handleChunk [] (List.flatten [['a'], ['b', '\n', 'c']])).buffer ∧
      '\n' ∉ (feedChunks [] [['a'], ['b', '\n', 'c']]).2) :=
  ⟨by decide, line_parser_chunk_invariance [['a'], ['b', '\n', 'c']] (by decide)⟩

/-- C5: the buffer left by `handleChunk` never exceeds the 1 MiB ceiling; and
whenever appending a chunk pushes the buffer over the ceiling, the truncation
warning is logged, the truncated buffer is exactly the most recent
`maxBufferSize / 2` characters (a suffix of the oversized buffer), and the
buffer remaining after line extraction is at most `maxBufferSize / 2`. -/
theorem buffer_ceiling_invariant (buffer chunk : List Char) :
    (handleChunk buffer chunk).buffer.length ≤ maxBufferSize ∧
    ((buffer ++ chunk).length > maxBufferSize →
      (handleChunk buffer chunk).warned = true ∧
      (truncateBuffer (buffer ++ chunk)).1.length = maxBufferSize / 2 ∧
      (truncateBuffer (buffer ++ chunk)).1 <:+ (buffer ++ chunk) ∧
      (handleChunk buffer chunk).buffer.length ≤ maxBufferSize / 2) := by
  have hhb : (handleChunk buffer chunk).buffer =
      (extractLines (truncateBuffer (buffer ++ chunk)).1).2 := rfl
  have hhw : (handleChunk buffer chunk).warned =
      (truncateBuffer (buffer ++ chunk)).2 := rfl
  have hsnd := (extractLines_snd (truncateBuffer (buffer ++ chunk)).1).2
  by_cases hb : (buffer ++ chunk).length > maxBufferSize
  · have hhalf : maxBufferSize / 2 ≤ (buffer ++ chunk).length := by
      have := Nat.div_le_self maxBufferSize 2
      omega
    have htr : truncateBuffer (buffer ++ chunk) =
        ((buffer ++ chunk).drop ((buffer ++ chunk).length - maxBufferSize / 2), true) := by
      unfold truncateBuffer
      rw [if_pos hb]
    have hlen : (truncateBuffer (buffer ++ chunk)).1.length = maxBufferSize / 2 := by
      rw [htr]
      simp only [List.length_drop]
      omega
    constructor
    · rw [hhb]
      refine le_trans hsnd ?_
      rw [hlen]
      exact Nat.div_le_self maxBufferSize 2
    · intro _
      refine ⟨?_, hlen, ?_, ?_⟩
      · rw [hhw, htr]
      · have h1 : (truncateBuffer (buffer ++ chunk)).1 =
            (buffer ++ chunk).drop ((buffer ++ chunk).length - maxBufferSize / 2) := by
          rw [htr]
        rw [h1]
        exact List.drop_suffix _ _
      · rw [hhb]
        refine le_trans hsnd ?_
        rw [hlen]
  · have htr : truncateBuffer (buffer ++ chunk) = (buffer ++ chunk, false) := by
      unfold truncateBuffer
      rw [if_neg hb]
    constructor
    · rw [hhb]
      refine le_trans hsnd ?_
      have h1 : (truncateBuffer (buffer ++ chunk)).1 = buffer ++ chunk := by
        rw [htr]
      rw [h1]
      exact Nat.le_of_not_lt hb
    · intro hcon
      exact absurd hcon hb

theorem buffer_ceiling_invariant_witness :
    ((List.replicate (maxBufferSize + 1) 'a' : List Char) ++ []).length > maxBufferSize ∧
    ((handleChunk (List.replicate (maxBufferSize + 1) 'a') []).warned = true ∧
      (truncateBuffer (List.replicate (maxBufferSize + 1) 'a' ++ [])).1.length =
        maxBufferSize / 2 ∧
      (truncateBuffer (List.replicate (maxBufferSize + 1) 'a' ++ [])).1 <:+
        (List.replicate (maxBufferSize + 1) 'a' ++ []) ∧
      (handleChunk (List.replicate (maxBufferSize + 1) 'a') []).buffer.length ≤
        maxBufferSize / 2) :=
  ⟨by simp only [List.append_nil, List.length_replicate]; omega,
    (buffer_ceiling_invariant (List.replicate (maxBufferSize + 1) 'a') []).2
      (by simp only [List.append_nil, List.length_replicate]; omega)⟩

end Agent

namespace Agent

/-! ## Supervisor claims -/

/-- C1: on every unplanned stop (a subprocess exit, or a failed spawn) the
scheduled restart delay equals `min(initialRetryDelay * 2 ^ retryCount,
maxRetryDelay)` computed from the current counter, and the counter then
advances by one; every successful start resets the counter to zero; and on the
concrete trace with three consecutive unplanned exits (no successful start in
between) the 4th scheduled delay is 40000 ms, while after a subsequent clean
start the next unplanned exit schedules 5000 ms again. -/
theorem backoff_schedule_correct :
    (∀ (s : W) (pid : Nat), pid ∈ s.live →
      (procExitW pid s).2 =
        [Obs.scheduledRestart (min (initialRetryDelay * 2 ^ s.retryCount) maxRetryDelay)] ∧
      (procExitW pid s).1.retryCount = s.retryCount + 1) ∧
    (∀ s : W, ¬ (s.st = WState.running ∨ s.st = WState.starting) →
      (startW true s).1.retryCount = 0 ∧ (startW true s).1.st = WState.running) ∧
    (∀ s : W, ¬ (s.st = WState.running ∨ s.st = WState.starting) →
      (startW false s).2 =
        [Obs.scheduledRestart (min (initialRetryDelay * 2 ^ s.retryCount) maxRetryDelay)] ∧
      (startW false s).1.retryCount = s.retryCount + 1) ∧
    (runW initW backoffTrace).2.filterMap Obs.delayOf = [5000, 10000, 20000, 40000, 5000] := by
  refine ⟨?_, ?_, ?_, by decide⟩
  · intro s pid h
    simp [procExitW, scheduleRestartW, h]
  · intro s h
    simp [startW, h]
  · intro s h
    simp [startW, scheduleRestartW, h]

theorem backoff_schedule_correct_witness :
    0 ∈ exampleSupervisor.live ∧
    ((procExitW 0 exampleSupervisor).2 =
      [Obs.scheduledRestart
        (min (initialRetryDelay * 2 ^ exampleSupervisor.retryCount) maxRetryDelay)] ∧
      (procExitW 0 exampleSupervisor).1.retryCount = exampleSupervisor.retryCount + 1) :=
  ⟨by decide, backoff_schedule_correct.1 exampleSupervisor 0 (by decide)⟩

/-- C3 (code bug): `stop()` immediately followed by `start()` before the old
subprocess exits leaves the supervisor with TWO live subprocesses, not one:
when the old process finally exits, its stale `exit` handler nulls the
reference to the new process, flips the state to stopped and schedules a
restart, so the new process is orphaned (never signalled) while the scheduled
restart spawns a third one — and a restart does get scheduled downstream of a
planned `stop()`. -/
theorem process_leak_exhibited :
    (runW initW leakTrace).1.live = [1, 2] ∧
    (runW initW leakTrace).1.live.length = 2 ∧
    (runW initW leakTrace).1.procRef = some 2 ∧
    (runW initW leakTrace).2 =
      [Obs.spawned 0, Obs.sigterm 0, Obs.spawned 1, Obs.scheduledRestart 5000,
        Obs.spawned 2] ∧
    Obs.sigterm 1 ∉ (runW initW leakTrace).2 ∧
    Obs.sigkill 1 ∉ (runW initW leakTrace).2 := by decide

/-- C4 (code bug): `stop()` nulls `this.spawnedProcess` synchronously, before
the 5-second force-kill timer can fire; so if the stopped process ignores
SIGTERM and no new start happens, the timer fires against a null reference and
the process is NEVER force-killed (trace A: no sigkill observed, pid 0 still
live); and if `start()` ran in the meantime, the timer SIGKILLs the fresh
subprocess instead of the old one (trace B). -/
theorem stale_force_kill_exhibited :
    (runW initW staleKillTraceA).2 = [Obs.spawned 0, Obs.sigterm 0] ∧
    Obs.sigkill 0 ∉ (runW initW staleKillTraceA).2 ∧
    0 ∈ (runW initW staleKillTraceA).1.live ∧
    (runW initW staleKillTraceA).1.forceKillTimers = 0 ∧
    (runW initW staleKillTraceB).2 =
      [Obs.spawned 0, Obs.sigterm 0, Obs.spawned 1, Obs.sigkill 1] ∧
    Obs.sigkill 0 ∉ (runW initW staleKillTraceB).2 ∧
    0 ∈ (runW initW staleKillTraceB).1.live := by decide

end Agent

namespace Agent

/-! ## Decode-failure isolation and enrichment claims -/

/-- C6: a line on which the decoder fails contributes no event, logs an excerpt
that is at most the first 200 characters of the line, and leaves the processing
of all subsequent lines exactly as if the bad line were absent; concretely, one
malformed line followed by one well-formed forwardable line yields exactly one
forwarded payload and one logged excerpt. -/
theorem decode_failure_isolation :
    (∀ (decode : List Char → Option DockerEvent) (bad : List Char)
        (rest : List (List Char)), decode bad = none →
      decodeLines decode (bad :: rest) =
        ((decodeLines decode rest).1, bad.take 200 :: (decodeLines decode rest).2) ∧
      (bad.take 200).length ≤ 200) ∧
    (processChunk demoDecode noInspector [] badGoodChunk).1.length = 1 ∧
    (processChunk demoDecode noInspector [] badGoodChunk).2.1 = [("rubbish").toList] := by
  refine ⟨?_, by decide, by decide⟩
  intro decode bad rest h
  constructor
  · simp [decodeLines, h]
  · simp only [List.length_take]
    omega

theorem decode_failure_isolation_witness :
    demoDecode (("rubbish").toList) = none ∧
    (decodeLines demoDecode (("rubbish").toList :: [goodLine]) =
      ((decodeLines demoDecode [goodLine]).1,
        (("rubbish").toList).take 200 :: (decodeLines demoDecode [goodLine]).2) ∧
      ((("rubbish").toList).take 200).length ≤ 200) :=
  ⟨by decide,
    decode_failure_isolation.1 demoDecode (("rubbish").toList) [goodLine] (by decide)⟩

/-- C8: for a container-creation event whose inspector lookup fails, the event
is still forwarded, with exactly the original raw actor attributes (the mapping
is unchanged), and the enrichment failure is logged as an error. -/
theorem enrichment_failure_fallback (inspector : List Char → Option ContainerInspectInfo)
    (event : DockerEvent) (hA : event.Action = actionCreate)
    (hT : event.Type' = typeContainer) (hI : inspector event.Actor.ID = none) :
    (handleEvent inspector event).posted =
      some ⟨event.Action, event.Type', event.Actor.ID,
        PayloadAttrs.raw event.Actor.Attributes⟩ ∧
    (handleEvent inspector event).enrichErrorLogged = true := by
  have h1 : actionCreate ≠ actionStop := by decide
  have h2 : actionCreate ≠ actionKill := by decide
  have hsf : shouldForward event = true := by
    simp [shouldForward, hA, hT, h1, h2]
  simp [handleEvent, hsf, hA, hT, hI]

theorem enrichment_failure_fallback_witness :
    createEvent.Action = actionCreate ∧ createEvent.Type' = typeContainer ∧
    noInspector createEvent.Actor.ID = none ∧
    ((handleEvent noInspector createEvent).posted =
      some ⟨createEvent.Action, createEvent.Type', createEvent.Actor.ID,
        PayloadAttrs.raw createEvent.Actor.Attributes⟩ ∧
      (handleEvent noInspector createEvent).enrichErrorLogged = true) :=
  ⟨rfl, rfl, rfl, enrichment_failure_fallback noInspector createEvent rfl rfl rfl⟩

end Agent

namespace Agent

/-! ## Equivalence of the Map-based env parsing with the last-binding view -/

theorem jsSplit_ne_nil (sep : Char) : ∀ (l : List Char), jsSplit sep l ≠ [] := by
  intro l
  cases l with
  | nil => simp [jsSplit]
  | cons c cs =>
    by_cases h : c = sep
    · simp [jsSplit, h]
    · simp only [jsSplit, if_neg h]
      cases hs : jsSplit sep cs <;> simp

theorem joinSep_jsSplit (sep : Char) : ∀ (l : List Char), joinSep [sep] (jsSplit sep l) = l := by
  intro l
  induction l with
  | nil => simp [jsSplit, joinSep]
  | cons c cs ih =>
    by_cases h : c = sep
    · subst h
      simp only [jsSplit, if_pos rfl]
      cases hs : jsSplit c cs with
      | nil => exact absurd hs (jsSplit_ne_nil c cs)
      | cons s ss =>
        rw [hs] at ih
        simp only [joinSep, List.nil_append, List.cons_append]
        rw [ih]
    · simp only [jsSplit, if_neg h]
      cases hs : jsSplit sep cs with
      | nil => exact absurd hs (jsSplit_ne_nil sep cs)
      | cons s ss =>
        rw [hs] at ih
        cases ss with
        | nil =>
          simp only [joinSep] at ih ⊢
          rw [ih]
        | cons s2 ss2 =>
          simp only [joinSep, List.cons_append] at ih ⊢
          rw [← ih]

theorem splitEntry_eq (e : List Char) : splitEntry e = (entryKey e, entryValue e) := by
  induction e with
  | nil => simp [splitEntry, jsSplit, entryKey, entryValue, joinSep]
  | cons c cs ih =>
    by_cases h : c = '='
    · subst h
      simp [splitEntry, jsSplit, joinSep_jsSplit, entryKey, entryValue]
    · have hb : (c != '=') = true := by simp [h]
      have hk : entryKey (c :: cs) = c :: entryKey cs := by
        simp [entryKey, List.takeWhile_cons, hb]
      have hv : entryValue (c :: cs) = entryValue cs := by
        simp [entryValue, List.dropWhile_cons, hb]
      simp only [splitEntry, jsSplit, if_neg h]
      cases hs : jsSplit '=' cs with
      | nil => exact absurd hs (jsSplit_ne_nil _ _)
      | cons s ss =>
        have ihs : splitEntry cs = (s, joinSep ['='] ss) := by
          simp [splitEntry, hs]
        rw [ihs] at ih
        have h1 : s = entryKey cs := congrArg Prod.fst ih
        have h2 : joinSep ['='] ss = entryValue cs := congrArg Prod.snd ih
        rw [hk, hv, ← h1, ← h2]

theorem envMapGet_splitEntry (key : List Char) : ∀ (env : List (List Char))
    (acc : Option (List Char)),
    List.foldl (fun acc p => if p.1 = key then some p.2 else acc) acc (env.map splitEntry) =
      match specLastBinding key env with
      | some v => some v
      | none => acc := by
  intro env
  induction env with
  | nil => intro acc; simp [specLastBinding]
  | cons e es ih =>
    intro acc
    simp only [List.map_cons, List.foldl_cons]
    rw [ih, splitEntry_eq e]
    simp only [specLastBinding]
    cases hs : specLastBinding key es with
    | some v => simp
    | none =>
      by_cases hk : entryKey e = key
      · simp [hk]
      · simp [hk]

theorem getDetailsFromEnv_eq (inspect : ContainerInspectInfo) :
    getDetailsFromEnv inspect =
      ⟨specLastBinding keyAppId (inspect.Config.Env.getD []),
        specLastBinding keyEnvId (inspect.Config.Env.getD []),
        specLastBinding keyDeploymentId (inspect.Config.Env.getD [])⟩ := by
  have hgen : ∀ key : List Char,
      envMapGet key ((inspect.Config.Env.getD []).map splitEntry) =
        specLastBinding key (inspect.Config.Env.getD []) := by
    intro key
    rw [envMapGet, envMapGet_splitEntry]
    cases specLastBinding key (inspect.Config.Env.getD []) <;> rfl
  simp [getDetailsFromEnv, hgen]

theorem specLastBinding_eq_none (key : List Char) : ∀ (env : List (List Char)),
    (∀ e ∈ env, entryKey e ≠ key) → specLastBinding key env = none := by
  intro env
  induction env with
  | nil => intro _; rfl
  | cons e es ih =>
    intro h
    have h1 : entryKey e ≠ key := h e (by simp)
    have h2 := ih (fun x hx => h x (by simp [hx]))
    simp [specLastBinding, h2, h1]

end Agent

namespace Agent

/-- C9: for a successfully enriched container-creation event, the outbound
payload carries `application_id`, `environment_id` and `deployment_id` equal to
the values bound to the exact keys `CORE_APP_ID`, `CORE_ENV_ID` and
`CORE_DEPLOYMENT_ID` in the inspected container's declared environment list
(the last binding of each key), and a key that is bound by no entry yields
`none`. -/
theorem enrichment_env_ids (inspector : List Char → Option ContainerInspectInfo)
    (event : DockerEvent) (inspect : ContainerInspectInfo)
    (hA : event.Action = actionCreate) (hT : event.Type' = typeContainer)
    (hI : inspector event.Actor.ID = some inspect) :
    ((handleEvent inspector event).posted = some
      ⟨event.Action, event.Type', event.Actor.ID,
        PayloadAttrs.enriched inspect.Id (stripLeadingSlash inspect.Name)
          (parseImageTag inspect.Config.Image).1 (parseImageTag inspect.Config.Image).2
          inspect.State.Status inspect.Created
          (specLastBinding keyAppId (inspect.Config.Env.getD []))
          (specLastBinding keyEnvId (inspect.Config.Env.getD []))
          (specLastBinding keyDeploymentId (inspect.Config.Env.getD []))⟩) ∧
    (∀ (key : List Char) (env : List (List Char)),
      (∀ e ∈ env, entryKey e ≠ key) → specLastBinding key env = none) := by
  constructor
  · have h1 : actionCreate ≠ actionStop := by decide
    have h2 : actionCreate ≠ actionKill := by decide
    have hsf : shouldForward event = true := by
      simp [shouldForward, hA, hT, h1, h2]
    simp [handleEvent, hsf, hA, hT, hI, getDetailsFromEnv_eq]
  · intro key env h
    exact specLastBinding_eq_none key env h

theorem enrichment_env_ids_witness :
    createEvent.Action = actionCreate ∧ createEvent.Type' = typeContainer ∧
    inspectorExample createEvent.Actor.ID = some (inspectWithEnv envExample) ∧
    (((handleEvent inspectorExample createEvent).posted = some
      ⟨createEvent.Action, createEvent.Type', createEvent.Actor.ID,
        PayloadAttrs.enriched (inspectWithEnv envExample).Id
          (stripLeadingSlash (inspectWithEnv envExample).Name)
          (parseImageTag (inspectWithEnv envExample).Config.Image).1
          (parseImageTag (inspectWithEnv envExample).Config.Image).2
          (inspectWithEnv envExample).State.Status (inspectWithEnv envExample).Created
          (specLastBinding keyAppId ((inspectWithEnv envExample).Config.Env.getD []))
          (specLastBinding keyEnvId ((inspectWithEnv envExample).Config.Env.getD []))
          (specLastBinding keyDeploymentId
            ((inspectWithEnv envExample).Config.Env.getD []))⟩) ∧
      (∀ (key : List Char) (env : List (List Char)),
        (∀ e ∈ env, entryKey e ≠ key) → specLastBinding key env = none)) ∧
    specLastBinding keyAppId envExample = some (("a1").toList) ∧
    specLastBinding keyEnvId envExample = some (("e1").toList) ∧
    specLastBinding keyDeploymentId envExample = none :=
  ⟨rfl, rfl, rfl,
    enrichment_env_ids inspectorExample createEvent (inspectWithEnv envExample) rfl rfl rfl,
    by decide, by decide, by decide⟩

/-- C10: for every environment list the three identifiers are extracted by
taking, for each key, the last entry whose text before its first `=` equals the
key exactly, with value the entire text after that first `=` (so values
containing further `=` characters are preserved intact, and on duplicate keys
the last entry wins); concretely a duplicated `CORE_APP_ID` resolves to the
last value, and `CORE_ENV_ID=x=y` yields the value `x=y`. -/
theorem env_binding_semantics :
    (∀ inspect : ContainerInspectInfo,
      getDetailsFromEnv inspect =
        ⟨specLastBinding keyAppId (inspect.Config.Env.getD []),
          specLastBinding keyEnvId (inspect.Config.Env.getD []),
          specLastBinding keyDeploymentId (inspect.Config.Env.getD [])⟩) ∧
    (getDetailsFromEnv (inspectWithEnv envDup)).application_id = some (("c").toList) ∧
    (getDetailsFromEnv (inspectWithEnv envEqVal)).environment_id = some (("x=y").toList) :=
  ⟨getDetailsFromEnv_eq, by decide, by decide⟩

end Agent

namespace Agent

/-! ## Image/tag splitting -/

theorem lastIdx_none_iff (c : Char) (l : List Char) : lastIdx c l = none ↔ c ∉ l := by
  induction l with
  | nil => simp [lastIdx]
  | cons a as ih =>
    cases hs : lastIdx c as with
    | some i =>
      have hmem : c ∈ as := by
        by_contra hn
        rw [ih.mpr hn] at hs
        exact Option.noConfusion hs
      simp [lastIdx, hs, List.mem_cons, hmem]
    | none =>
      have hnm : c ∉ as := ih.mp hs
      by_cases h : a = c
      · subst h
        simp [lastIdx, hs]
      · simp [lastIdx, hs, h, hnm, Ne.symm h]

theorem lastIdx_getElem {c : Char} : ∀ {l : List Char} {i : Nat},
    lastIdx c l = some i → i < l.length ∧ l[i]? = some c := by
  intro l
  induction l with
  | nil => intro i h; simp [lastIdx] at h
  | cons a as ih =>
    intro i h
    cases hs : lastIdx c as with
    | some j =>
      rw [lastIdx, hs] at h
      obtain ⟨hj1, hj2⟩ := ih hs
      have hij : i = j + 1 := (Option.some.inj h).symm
      subst hij
      refine ⟨by simp; omega, ?_⟩
      simpa [List.getElem?_cons_succ] using hj2
    | none =>
      rw [lastIdx, hs] at h
      by_cases ha : a = c
      · rw [if_pos ha] at h
        have hi : i = 0 := (Option.some.inj h).symm
        subst hi
        exact ⟨by simp, by simp [ha]⟩
      · rw [if_neg ha] at h
        exact Option.noConfusion h

theorem firstIdx_getElem {c : Char} : ∀ {l : List Char} {i : Nat},
    firstIdx c l = some i → l[i]? = some c := by
  intro l
  induction l with
  | nil => intro i h; simp [firstIdx] at h
  | cons a as ih =>
    intro i h
    by_cases ha : a = c
    · simp only [firstIdx, if_pos ha] at h
      have hi : i = 0 := (Option.some.inj h).symm
      subst hi
      simp [ha]
    · simp only [firstIdx, if_neg ha, Option.map_eq_some'] at h
      obtain ⟨j, hj, hji⟩ := h
      subst hji
      simpa [List.getElem?_cons_succ] using ih hj

theorem firstIdx_mem_take {c : Char} : ∀ {l : List Char} {i : Nat},
    firstIdx c l = some i → ∀ (n : Nat), c ∈ l.take n ↔ i < n := by
  intro l
  induction l with
  | nil => intro i h; simp [firstIdx] at h
  | cons a as ih =>
    intro i h n
    by_cases ha : a = c
    · simp only [firstIdx, if_pos ha] at h
      have hi : i = 0 := (Option.some.inj h).symm
      subst hi
      cases n with
      | zero => simp
      | succ n => simp [List.take_succ_cons, ha]
    · simp only [firstIdx, if_neg ha, Option.map_eq_some'] at h
      obtain ⟨j, hj, hji⟩ := h
      subst hji
      cases n with
      | zero => simp
      | succ n =>
        simp [List.take_succ_cons, Ne.symm ha, ih hj, Nat.succ_lt_succ_iff]

theorem parseImageTag_eq_spec (s : List Char) : parseImageTag s = specParseImage s := by
  unfold parseImageTag specParseImage
  cases hL : lastIdx ':' s with
  | none => rfl
  | some L =>
    obtain ⟨hLlen, hLget⟩ := lastIdx_getElem hL
    cases hF : firstIdx '/' s with
    | none =>
      have hns : '/' ∉ s := (firstIdx_none_iff _ _).mp hF
      simp [hns]
    | some F =>
      have hFget := firstIdx_getElem hF
      have hmem : '/' ∈ s := by
        by_contra hn
        rw [(firstIdx_none_iff '/' s).mpr hn] at hF
        exact Option.noConfusion hF
      have hne : F ≠ L := by
        intro he
        rw [he] at hFget
        rw [hFget] at hLget
        have : '/' = ':' := Option.some.inj hLget
        exact absurd this (by decide)
      have htake := firstIdx_mem_take hF L
      by_cases hc : L < F
      · have hnin : '/' ∉ s.take L := by
          rw [htake]
          omega
        simp [hc, hmem, hnin]
      · have hin : '/' ∈ s.take L := by
          rw [htake]
          omega
        simp [hc, hin]

/-- C7 (corrected), counterexample: the claim says the reference is split at
its last colon only if NO slash appears after that colon; but the code checks
the FIRST slash of the whole reference instead.  On `a/b:c/d` a slash (index 5)
does appear after the last colon (index 3), so the claim mandates
(`a/b:c/d`, `latest`), yet the code splits to (`a/b`, `c/d`). -/
theorem image_tag_claim_counterexample :
    lastIdx ':' (("a/b:c/d").toList) = some 3 ∧
    '/' ∈ (("a/b:c/d").toList).drop 4 ∧
    parseImageTag (("a/b:c/d").toList) = (("a/b").toList, ("c/d").toList) ∧
    (("a/b").toList, ("c/d").toList) ≠ ((("a/b:c/d").toList), latestTag) := by decide

/-- C7 (amended): the parser splits at the last colon only if the reference's
FIRST slash (if any) occurs before that colon; otherwise — no colon at all, or
every slash of the reference occurs after the last colon — the whole reference
is the name with tag `latest`; a trailing empty tag after the split colon also
defaults to `latest`.  The four examples of the claim hold as stated. -/
theorem image_tag_split_amended :
    (∀ s : List Char, parseImageTag s = specParseImage s) ∧
    parseImageTag (("nginx").toList) = (("nginx").toList, latestTag) ∧
    parseImageTag (("nginx:1.25").toList) = (("nginx").toList, ("1.25").toList) ∧
    parseImageTag (("localhost:5000/app").toList) =
      (("localhost:5000/app").toList, latestTag) ∧
    parseImageTag (("localhost:5000/app:2").toList) =
      (("localhost:5000/app").toList, ("2").toList) :=
  ⟨parseImageTag_eq_spec, by decide, by decide, by decide, by decide⟩

end Agent
